import Mathlib

/-!
Verification development for the audio-analysis core of the player
repository.  The Python sources are shallowly embedded:

* `src/audio/engine.py` — `compute_fft_frame`, the window-start index
  computation, and `SampleLoader` (the background decode thread is
  modelled as a pending-task list with explicit completion events).
* `src/ui/visualizations.py` — the `SpectrogramWidget` and
  `SpectralFluxWidget` state machines (`set_max_cols`, `add_column`,
  `set_max_points`, `update_spectrum`).

Machine floats are modelled by exact arithmetic: sample data and all
derived vectors live in `ℚ`; the transcendental library routines used by
the source (`np.fft.rfft` magnitudes, `np.log1p`, `np.logspace`) are
abstracted as function parameters constrained only by the properties the
source guarantees (non-negativity, output length), except for the
log-spaced bar-index formula, which is additionally modelled exactly
over `ℝ` for the claims about it.
-/

-- ---------------------------------------------------------------------------
-- Generic helpers
-- ---------------------------------------------------------------------------

/-- Python `int(q)` on a rational: truncation toward zero. -/
def truncQ (q : ℚ) : ℤ := if 0 ≤ q then ⌊q⌋ else ⌈q⌉

/-- The maximum of a list of rationals, as computed by `numpy.max` on a
non-empty array (`0` on the empty list, which the source never reaches). -/
def npMax : List ℚ → ℚ
  | [] => 0
  | [a] => a
  | a :: b :: t => max a (npMax (b :: t))

/-- Python slice `l[-n:]`: for `n = 0` this is `l[0:]`, the whole list;
for `n > 0` it keeps the last `n` elements (all of them when `n > len`). -/
def pySliceLast (n : ℕ) (l : List (List ℚ)) : List (List ℚ) :=
  if n = 0 then l else l.drop (l.length - n)

/-- Python slice `h[-n:]` on a list of scalars (same semantics). -/
def pySliceLastQ (n : ℕ) (l : List ℚ) : List ℚ :=
  if n = 0 then l else l.drop (l.length - n)

-- ---------------------------------------------------------------------------
-- Frame analyzer: compute_fft_frame (src/audio/engine.py, lines 160-221)
-- ---------------------------------------------------------------------------

/-- engine.py line 160: `FFT_BLOCK = 2048`. -/
def FFT_BLOCK : ℕ := 2048

/-- engine.py line 161: `FFT_BINS = 512`. -/
def FFT_BINS : ℕ := 512

/-- engine.py lines 184-185:
`idx = min(int(position * n), n - FFT_BLOCK); idx = max(0, idx)`. -/
def windowStart (n : ℕ) (position : ℚ) : ℤ :=
  max 0 (min (truncQ (position * n)) ((n : ℤ) - FFT_BLOCK))

/-- engine.py line 186: `block = samples[idx : idx + FFT_BLOCK]`.
A buffer is a list of frames, each frame a list of per-channel samples. -/
def blockOf (s : List (List ℚ)) (position : ℚ) : List (List ℚ) :=
  (s.drop (windowStart s.length position).toNat).take FFT_BLOCK

/-- engine.py lines 192-194: if the block has fewer than 2 channels,
duplicate the single channel into both (`np.column_stack([ch, ch])`).
Row indexing is total (`headI` returns `0` for a missing entry), matching
the regular non-empty rows produced by the decoder. -/
def stereoBlock (b : List (List ℚ)) : List (List ℚ) :=
  if b.headI.length < 2 then b.map (fun r => [r.headI, r.headI]) else b

/-- engine.py line 196: `left = block[:, 0]`. -/
def leftCh (b : List (List ℚ)) : List ℚ := (stereoBlock b).map List.headI

/-- engine.py line 197: `right = block[:, 1]`. -/
def rightCh (b : List (List ℚ)) : List ℚ :=
  (stereoBlock b).map (fun r => r.getD 1 0)

/-- engine.py line 198: `mono = (left + right) * 0.5`. -/
def monoCh (b : List (List ℚ)) : List ℚ :=
  List.zipWith (fun l r => (l + r) * (1 / 2 : ℚ)) (leftCh b) (rightCh b)

/-- engine.py lines 201-202:
`fft = np.abs(np.fft.rfft(mono))[:FFT_BINS]; fft = np.log1p(fft)`.
The transcendental routines are abstracted: `f` stands for the magnitude
of the real FFT, `g` for `log1p`. -/
def specRaw (f : List ℚ → List ℚ) (g : ℚ → ℚ) (mono : List ℚ) : List ℚ :=
  ((f mono).take FFT_BINS).map g

/-- engine.py lines 203-205: `mx = fft.max(); if mx > 0: fft /= mx`
(division by the plain maximum, not the absolute maximum). -/
def pyNormMax (l : List ℚ) : List ℚ :=
  if 0 < npMax l then l.map (fun x => x / npMax l) else l

/-- The spectrum after normalization, as it feeds the bar extraction. -/
def specNorm (f : List ℚ → List ℚ) (g : ℚ → ℚ) (mono : List ℚ) : List ℚ :=
  pyNormMax (specRaw f g mono)

/-- engine.py lines 208-209: the log-spaced indices produced by
`np.logspace(0, np.log10(len(fft) - 1), bar_count, dtype=int)` (abstracted
as `ls`) clipped by `np.clip(indices, 0, len(fft) - 1)`. -/
def barIndices (ls : ℕ → List ℤ) (barCount : ℕ) : List ℤ :=
  (ls barCount).map (fun i => max 0 (min i ((FFT_BINS : ℤ) - 1)))

/-- engine.py line 210: `bars = fft[indices].tolist()`. -/
def barsOf (f : List ℚ → List ℚ) (g : ℚ → ℚ) (ls : ℕ → List ℤ)
    (s : List (List ℚ)) (position : ℚ) (barCount : ℕ) : List ℚ :=
  (barIndices ls barCount).map
    (fun i => (specNorm f g (monoCh (blockOf s position))).getD i.toNat 0)

/-- engine.py lines 212-214: the `norm` helper,
`mx = np.abs(arr).max(); return (arr / mx).tolist() if mx > 0 else arr.tolist()`. -/
def pyNormAbs (arr : List ℚ) : List ℚ :=
  if 0 < npMax (arr.map (fun x => |x|)) then
    arr.map (fun x => x / npMax (arr.map (fun y => |y|)))
  else arr

/-- The result dict of `compute_fft_frame`. -/
structure FrameResult where
  bars : List ℚ
  left : List ℚ
  right : List ℚ
  mono : List ℚ
deriving DecidableEq

/-- engine.py lines 164-221: `compute_fft_frame(samples, position, bar_count)`.
`f`, `g`, `ls` abstract the numpy routines as in `specRaw` and `barIndices`. -/
def computeFFTFrame (f : List ℚ → List ℚ) (g : ℚ → ℚ) (ls : ℕ → List ℤ)
    (samples : Option (List (List ℚ))) (position : ℚ) (barCount : ℕ) :
    Option FrameResult :=
  match samples with
  | none => none
  | some s =>
    if s.length < FFT_BLOCK then none
    else if position < 0 ∨ 1 < position then none
    else if (blockOf s position).length < FFT_BLOCK then none
    else some ⟨barsOf f g ls s position barCount,
               pyNormAbs (leftCh (blockOf s position)),
               pyNormAbs (rightCh (blockOf s position)),
               pyNormAbs (monoCh (blockOf s position))⟩

/-- Specification predicate for one normalization pass: `out` is `raw`
scaled by the peak absolute value of `raw`, with the zero guard. -/
def NormSpec (raw out : List ℚ) : Prop :=
  (npMax (raw.map (fun x => |x|)) = 0 → out = raw ∧ ∀ x ∈ raw, x = 0) ∧
  (0 < npMax (raw.map (fun x => |x|)) → npMax (out.map (fun x => |x|)) = 1) ∧
  (∀ x ∈ out, |x| ≤ 1)

-- ---------------------------------------------------------------------------
-- Sample loader (src/audio/engine.py, lines 129-153)
-- ---------------------------------------------------------------------------

/-- State of a `SampleLoader`: the exposed buffer and sample rate, plus the
paths whose background decode threads are still running. -/
structure LoaderState where
  samples : Option (List (List ℚ))
  sample_rate : ℕ
  pending : List String
deriving DecidableEq

/-- An event in a loader history: a call to `load(path)`, or the completion
of the background thread for the i-th pending decode. -/
inductive LoaderEv where
  | load (path : String)
  | finish (i : ℕ)
deriving DecidableEq

/-- One step of the loader.  `load` (engine.py lines 140-145) synchronously
resets the exposed state and starts a decode; `finish` delivers the result
of `_run` (lines 147-153): on success the fields are overwritten
unconditionally — the source has no generation token — and on failure the
exception is caught and only printed, leaving the fields untouched. -/
def loaderStep (decode : String → Option (List (List ℚ) × ℕ))
    (s : LoaderState) : LoaderEv → LoaderState
  | LoaderEv.load p => ⟨none, 0, s.pending ++ [p]⟩
  | LoaderEv.finish i =>
    match s.pending[i]? with
    | none => s
    | some p =>
      match decode p with
      | some br => ⟨some br.1, br.2, s.pending.eraseIdx i⟩
      | none => ⟨s.samples, s.sample_rate, s.pending.eraseIdx i⟩

/-- Run a loader history from a starting state. -/
def loaderRun (decode : String → Option (List (List ℚ) × ℕ))
    (s : LoaderState) (evs : List LoaderEv) : LoaderState :=
  evs.foldl (loaderStep decode) s

/-- A concrete decoder for the stale-overwrite scenario: two distinct
tracks that both decode successfully. -/
def decodeAB : String → Option (List (List ℚ) × ℕ) :=
  fun p => if p = "a" then some ([[1]], 11)
           else if p = "b" then some ([[2]], 22) else none

/-- A decoder that always fails. -/
def decodeFail : String → Option (List (List ℚ) × ℕ) := fun _ => none

-- ---------------------------------------------------------------------------
-- Spectrogram widget (src/ui/visualizations.py, lines 86-105)
-- ---------------------------------------------------------------------------

/-- State of a `SpectrogramWidget`: the retained columns and the cap. -/
structure SpectrogramState where
  cols : List (List ℚ)
  maxCols : ℕ
deriving DecidableEq

/-- visualizations.py lines 95-99: `set_max_cols(n)` stores the new cap and,
if the history is now over it, truncates with `self._columns[-n:]`. -/
def set_max_cols (s : SpectrogramState) (n : ℕ) : SpectrogramState :=
  if n < s.cols.length then ⟨pySliceLast n s.cols, n⟩ else ⟨s.cols, n⟩

/-- visualizations.py lines 101-105: `add_column(fft)` appends and pops the
front once if the count now exceeds the cap. -/
def add_column (s : SpectrogramState) (c : List ℚ) : SpectrogramState :=
  if s.maxCols < (s.cols ++ [c]).length then ⟨(s.cols ++ [c]).drop 1, s.maxCols⟩
  else ⟨s.cols ++ [c], s.maxCols⟩

/-- The widget as constructed (`_columns = []`, `_max_cols = 200`). -/
def sgInit : SpectrogramState := ⟨[], 200⟩

/-- An operation on the spectrogram widget. -/
inductive SGOp where
  | add (c : List ℚ)
  | setCap (n : ℕ)
deriving DecidableEq

/-- Interpret one operation. -/
def sgStep (s : SpectrogramState) : SGOp → SpectrogramState
  | SGOp.add c => add_column s c
  | SGOp.setCap n => set_max_cols s n

/-- Run a sequence of operations. -/
def sgRun (s : SpectrogramState) (ops : List SGOp) : SpectrogramState :=
  ops.foldl sgStep s

/-- The columns appended by a sequence of operations, in order. -/
def addedCols (ops : List SGOp) : List (List ℚ) :=
  ops.filterMap (fun op => match op with | SGOp.add c => some c | _ => none)

-- ---------------------------------------------------------------------------
-- Spectral-flux widget (src/ui/visualizations.py, lines 232-257)
-- ---------------------------------------------------------------------------

/-- State of a `SpectralFluxWidget`: flux history, retained previous
spectrum, and the point cap. -/
structure FluxState where
  history : List ℚ
  prev : Option (List ℚ)
  maxPoints : ℕ
deriving DecidableEq

/-- visualizations.py line 252: `np.sum(np.abs(current - previous))`. -/
def fluxOf (cur prevSpec : List ℚ) : ℚ :=
  (List.zipWith (fun a b => |a - b|) cur prevSpec).sum

/-- The FIFO trim applied after an append (lines 254-255):
`if len(h) > max_points: h.pop(0)`. -/
def capTrim (h : List ℚ) (m : ℕ) : List ℚ := if m < h.length then h.drop 1 else h

/-- visualizations.py lines 250-257: `update_spectrum(spectrum)`. -/
def update_spectrum (s : FluxState) (spectrum : List ℚ) : FluxState :=
  match s.prev with
  | some p =>
    if spectrum.length = p.length then
      ⟨capTrim (s.history ++ [min 1 (fluxOf spectrum p / 10)]) s.maxPoints,
       some spectrum, s.maxPoints⟩
    else ⟨s.history, some spectrum, s.maxPoints⟩
  | none => ⟨s.history, some spectrum, s.maxPoints⟩

/-- visualizations.py lines 244-248: `set_max_points(n)`. -/
def set_max_points (t : FluxState) (n : ℕ) : FluxState :=
  if n < t.history.length then ⟨pySliceLastQ n t.history, t.prev, n⟩
  else ⟨t.history, t.prev, n⟩

-- ---------------------------------------------------------------------------
-- Exact-real model of the log-spaced bar indices (engine.py lines 208-209)
-- ---------------------------------------------------------------------------

/-- Truncation toward zero of a real, as performed by a numpy cast to int. -/
noncomputable def truncR (x : ℝ) : ℤ := if 0 ≤ x then ⌊x⌋ else ⌈x⌉

/-- The k-th value of `np.logspace(0, np.log10(511), B)` in exact
arithmetic: `10 ** (k * log10(511) / (B - 1))`. -/
noncomputable def logspaceVal (B k : ℕ) : ℝ :=
  (10 : ℝ) ^ (((k : ℝ) * Real.logb 10 511) / ((B : ℝ) - 1))

/-- The k-th bar index of engine.py lines 208-209 in exact arithmetic:
the logspace value cast to int, then clipped into `[0, 511]`. -/
noncomputable def barIndex (B k : ℕ) : ℤ :=
  max 0 (min (truncR (logspaceVal B k)) 511)

/-- The bar index as the claim words it, with `round` in place of the
cast-to-int truncation. -/
noncomputable def barIndexClaim (B k : ℕ) : ℤ :=
  max 0 (min (round (logspaceVal B k)) 511)

/-- The exact-real model of the raw `np.logspace(...)` index list, in the
shape expected by `barIndices`. -/
noncomputable def logspaceModel (B : ℕ) : List ℤ :=
  (List.range B).map (fun k => truncR (logspaceVal B k))

-- ---------------------------------------------------------------------------
-- Trivial instantiations of the abstracted numpy routines, used to
-- exercise the analyzer theorems on closed inputs
-- ---------------------------------------------------------------------------

/-- A stand-in FFT magnitude: the all-zero spectrum of the correct length. -/
def rfft0 : List ℚ → List ℚ := fun m => List.replicate (m.length / 2 + 1) 0

/-- A stand-in for `log1p` that preserves non-negativity. -/
def log1p0 : ℚ → ℚ := fun x => x

/-- A stand-in index generator of the correct length. -/
def ls0 : ℕ → List ℤ := fun B => List.replicate B 1

/-- A concrete 4096-frame stereo buffer. -/
def buf4096 : List (List ℚ) := List.replicate 4096 [1, 1]

-- ---------------------------------------------------------------------------
-- Helper lemmas: npMax
-- ---------------------------------------------------------------------------

/-- Every member of a list is bounded by its numpy maximum. -/
theorem le_npMax_of_mem : ∀ (l : List ℚ) (x : ℚ), x ∈ l → x ≤ npMax l
  | [a], x, h => by
      rcases List.mem_singleton.mp h with rfl
      simp [npMax]
  | a :: b :: t, x, h => by
      rcases List.mem_cons.mp h with rfl | h2
      · exact le_max_left _ _
      · exact le_trans (le_npMax_of_mem (b :: t) x h2) (le_max_right _ _)

/-- Unfolding equation for the maximum of a list with two or more entries. -/
theorem npMax_cons_cons (a b : ℚ) (t : List ℚ) :
    npMax (a :: b :: t) = max a (npMax (b :: t)) := rfl

/-- The numpy maximum of a non-empty list is one of its members. -/
theorem npMax_mem : ∀ (l : List ℚ), l ≠ [] → npMax l ∈ l
  | [], h => absurd rfl h
  | [a], _ => by simp [npMax]
  | a :: b :: t, _ => by
      rw [npMax_cons_cons]
      rcases max_choice a (npMax (b :: t)) with h | h
      · rw [h]; exact List.mem_cons_self a _
      · rw [h]; exact List.mem_cons_of_mem a (npMax_mem (b :: t) (by simp))

/-- Dividing every entry by a positive constant divides the maximum. -/
theorem npMax_map_div (m : ℚ) (hm : 0 < m) :
    ∀ l : List ℚ, npMax (l.map (fun x => x / m)) = npMax l / m
  | [] => by simp [npMax]
  | [a] => by simp [npMax]
  | a :: b :: t => by
      have ih := npMax_map_div m hm (b :: t)
      simp only [List.map_cons] at ih ⊢
      rw [npMax_cons_cons, npMax_cons_cons, ih]
      rcases le_total a (npMax (b :: t)) with h | h
      · rw [max_eq_right ((div_le_div_iff_of_pos_right hm).mpr h), max_eq_right h]
      · rw [max_eq_left ((div_le_div_iff_of_pos_right hm).mpr h), max_eq_left h]

/-- If a list has only non-negative entries, taking absolute values is the
identity on it. -/
theorem map_abs_of_nonneg (l : List ℚ) (h : ∀ x ∈ l, 0 ≤ x) :
    l.map (fun x => |x|) = l := by
  induction l with
  | nil => simp
  | cons a t ih =>
      have ha := h a (List.mem_cons_self a t)
      simp only [List.map_cons, abs_of_nonneg ha, List.cons.injEq, true_and]
      exact ih (fun x hx => h x (List.mem_cons_of_mem a hx))

/-- Absolute values commute with division by a positive constant, mapped
over a list. -/
theorem map_abs_map_div (arr : List ℚ) (m : ℚ) (hm : 0 < m) :
    (arr.map (fun x => x / m)).map (fun x => |x|) =
      (arr.map (fun x => |x|)).map (fun x => x / m) := by
  induction arr with
  | nil => simp
  | cons a t ih => simp [abs_div, abs_of_pos hm, ih]

/-- The numpy maximum of an absolute-value list is non-negative when the
list is non-empty, and zero on the empty list. -/
theorem npMax_map_abs_nonneg (arr : List ℚ) :
    0 ≤ npMax (arr.map (fun x => |x|)) := by
  cases arr with
  | nil => simp [npMax]
  | cons a t =>
      have hmem : |a| ∈ (a :: t).map (fun x => |x|) := by simp
      exact le_trans (abs_nonneg a) (le_npMax_of_mem _ _ hmem)

/-- If the peak absolute value of a list is zero, every entry is zero. -/
theorem all_zero_of_npMax_abs_eq_zero (arr : List ℚ)
    (h : npMax (arr.map (fun x => |x|)) = 0) : ∀ x ∈ arr, x = 0 := by
  intro x hx
  have hmem : |x| ∈ arr.map (fun x => |x|) := List.mem_map_of_mem _ hx
  have hle := le_npMax_of_mem _ _ hmem
  rw [h] at hle
  exact abs_eq_zero.mp (le_antisymm hle (abs_nonneg x))

-- ---------------------------------------------------------------------------
-- Helper lemmas: the two normalization passes
-- ---------------------------------------------------------------------------

/-- Normalization by the peak absolute value preserves list length. -/
theorem pyNormAbs_length (arr : List ℚ) : (pyNormAbs arr).length = arr.length := by
  unfold pyNormAbs
  split <;> simp

/-- Normalization by the plain maximum preserves list length. -/
theorem pyNormMax_length (l : List ℚ) : (pyNormMax l).length = l.length := by
  unfold pyNormMax
  split <;> simp

/-- On a list of non-negative entries, the two normalization passes of the
source coincide (the spectrum one divides by the plain maximum). -/
theorem pyNormMax_eq_pyNormAbs (l : List ℚ) (h : ∀ x ∈ l, 0 ≤ x) :
    pyNormMax l = pyNormAbs l := by
  unfold pyNormMax pyNormAbs
  rw [map_abs_of_nonneg l h]

/-- The `norm` helper of engine.py satisfies the normalization contract:
the zero guard passes the list through (and then it is all-zero), and
otherwise the output peaks at exactly 1 and stays within `[-1, 1]`. -/
theorem normSpec_pyNormAbs (arr : List ℚ) : NormSpec arr (pyNormAbs arr) := by
  refine ⟨?_, ?_, ?_⟩
  · intro h0
    refine ⟨?_, all_zero_of_npMax_abs_eq_zero arr h0⟩
    unfold pyNormAbs
    rw [if_neg (by rw [h0]; exact lt_irrefl 0)]
  · intro hpos
    unfold pyNormAbs
    rw [if_pos hpos, map_abs_map_div _ _ hpos, npMax_map_div _ hpos,
      div_self (ne_of_gt hpos)]
  · intro x hx
    unfold pyNormAbs at hx
    by_cases hpos : 0 < npMax (arr.map (fun x => |x|))
    · rw [if_pos hpos] at hx
      rcases List.mem_map.mp hx with ⟨y, hy, rfl⟩
      have hyle : |y| ≤ npMax (arr.map (fun x => |x|)) :=
        le_npMax_of_mem _ _ (List.mem_map_of_mem _ hy)
      rw [abs_div, abs_of_pos hpos]
      exact (div_le_one hpos).mpr hyle
    · rw [if_neg hpos] at hx
      have h0 : npMax (arr.map (fun x => |x|)) = 0 :=
        le_antisymm (not_lt.mp hpos) (npMax_map_abs_nonneg arr)
      rw [all_zero_of_npMax_abs_eq_zero arr h0 x hx]
      simp

-- ---------------------------------------------------------------------------
-- Helper lemmas: window placement and block shape
-- ---------------------------------------------------------------------------

/-- For a non-negative argument, Python int() truncation is the floor. -/
theorem truncQ_of_nonneg (q : ℚ) (h : 0 ≤ q) : truncQ q = ⌊q⌋ := by
  unfold truncQ
  rw [if_pos h]

/-- The window start never exceeds `n - 2048` (as integers). -/
theorem windowStart_le (n : ℕ) (p : ℚ) (hn : FFT_BLOCK ≤ n) :
    windowStart n p ≤ (n : ℤ) - FFT_BLOCK := by
  unfold windowStart
  have h0 : (0 : ℤ) ≤ (n : ℤ) - FFT_BLOCK := by
    have : (FFT_BLOCK : ℤ) ≤ (n : ℤ) := Int.ofNat_le.mpr hn
    omega
  exact max_le h0 (min_le_right _ _)

/-- The window start is non-negative. -/
theorem windowStart_nonneg (n : ℕ) (p : ℚ) : 0 ≤ windowStart n p :=
  le_max_left _ _

/-- The extracted block always has exactly 2048 frames once the buffer has
at least that many. -/
theorem blockOf_length (s : List (List ℚ)) (p : ℚ) (hn : FFT_BLOCK ≤ s.length) :
    (blockOf s p).length = FFT_BLOCK := by
  unfold blockOf
  rw [List.length_take, List.length_drop]
  have hle := windowStart_le s.length p hn
  have htn : (windowStart s.length p).toNat ≤ s.length - FFT_BLOCK := by
    omega
  have : FFT_BLOCK ≤ s.length - (windowStart s.length p).toNat := by
    unfold FFT_BLOCK at hn htn ⊢
    omega
  omega

/-- Duplicating a mono channel does not change the frame count. -/
theorem stereoBlock_length (b : List (List ℚ)) :
    (stereoBlock b).length = b.length := by
  unfold stereoBlock
  split <;> simp

/-- The left channel has one sample per frame. -/
theorem leftCh_length (b : List (List ℚ)) : (leftCh b).length = b.length := by
  unfold leftCh
  rw [List.length_map, stereoBlock_length]

/-- The right channel has one sample per frame. -/
theorem rightCh_length (b : List (List ℚ)) : (rightCh b).length = b.length := by
  unfold rightCh
  rw [List.length_map, stereoBlock_length]

/-- The mono mix has one sample per frame. -/
theorem monoCh_length (b : List (List ℚ)) : (monoCh b).length = b.length := by
  unfold monoCh
  rw [List.length_zipWith, leftCh_length, rightCh_length, min_self]

/-- When every precondition holds, `compute_fft_frame` reaches its final
return statement, and the four vectors of the result are exactly the
normalized bars and channels of the extracted block. -/
theorem computeFFTFrame_eq_some (f : List ℚ → List ℚ) (g : ℚ → ℚ)
    (ls : ℕ → List ℤ) (s : List (List ℚ)) (p : ℚ) (B : ℕ)
    (hn : FFT_BLOCK ≤ s.length) (h0 : 0 ≤ p) (h1 : p ≤ 1) :
    computeFFTFrame f g ls (some s) p B =
      some ⟨barsOf f g ls s p B,
            pyNormAbs (leftCh (blockOf s p)),
            pyNormAbs (rightCh (blockOf s p)),
            pyNormAbs (monoCh (blockOf s p))⟩ := by
  simp only [computeFFTFrame]
  rw [if_neg (not_lt.mpr hn),
    if_neg (by rw [not_or]; exact ⟨not_lt.mpr h0, not_lt.mpr h1⟩),
    if_neg (by rw [blockOf_length s p hn]; exact lt_irrefl _)]

-- ---------------------------------------------------------------------------
-- C1: precondition behaviour of compute_fft_frame
-- ---------------------------------------------------------------------------

/-- C1: `compute_fft_frame` returns absent exactly when a precondition
fails — the buffer is absent, the buffer has fewer than 2048 frames, or the
position lies outside `[0, 1]`; for every buffer with at least 2048 frames
and position in `[0, 1]` it returns a result. -/
theorem C1_precondition_absent (f : List ℚ → List ℚ) (g : ℚ → ℚ)
    (ls : ℕ → List ℤ) (samples : Option (List (List ℚ))) (p : ℚ) (B : ℕ) :
    computeFFTFrame f g ls samples p B = none ↔
      (samples = none ∨ (∃ s, samples = some s ∧ s.length < FFT_BLOCK) ∨
        p < 0 ∨ 1 < p) := by
  match samples with
  | none => simp [computeFFTFrame]
  | some s =>
    by_cases hlen : s.length < FFT_BLOCK
    · simp [computeFFTFrame, hlen]
    · by_cases hpos : p < 0 ∨ 1 < p
      · constructor
        · intro _
          exact Or.inr (Or.inr hpos)
        · intro _
          simp only [computeFFTFrame]
          rw [if_neg hlen, if_pos hpos]
      · rw [not_or] at hpos
        rw [computeFFTFrame_eq_some f g ls s p B (not_lt.mp hlen)
          (not_lt.mp hpos.1) (not_lt.mp hpos.2)]
        constructor
        · intro h
          exact absurd h (Option.some_ne_none _)
        · intro h
          rcases h with h | ⟨s2, hs2, hlt⟩ | h | h
          · exact absurd h (Option.some_ne_none _)
          · rw [Option.some.inj hs2] at hlen
            exact absurd hlt hlen
          · exact absurd h hpos.1
          · exact absurd h hpos.2

/-- Witness for C1: a 2047-frame buffer is refused, at any oracle. -/
theorem C1_witness :
    computeFFTFrame rfft0 log1p0 ls0 (some (List.replicate 2047 ([0] : List ℚ)))
        0 4 = none ↔
      (some (List.replicate 2047 ([0] : List ℚ)) = none ∨
        (∃ s, some (List.replicate 2047 ([0] : List ℚ)) = some s ∧
          s.length < FFT_BLOCK) ∨
        (0 : ℚ) < 0 ∨ (1 : ℚ) < 0) :=
  C1_precondition_absent rfft0 log1p0 ls0
    (some (List.replicate 2047 ([0] : List ℚ))) 0 4

-- ---------------------------------------------------------------------------
-- C2: window placement
-- ---------------------------------------------------------------------------

/-- C2: for a buffer of `n ≥ 2048` frames and a position in `[0, 1]`, the
window start index equals `clamp(floor(p * n), 0, n - 2048)`; it lies in
`[0, n - 2048]`, is `0` at `p = 0`, is exactly `n - 2048` at `p = 1`, and
is monotonically non-decreasing in the position. -/
theorem C2_window_placement (n : ℕ) (p : ℚ) (hn : FFT_BLOCK ≤ n)
    (h0 : 0 ≤ p) (h1 : p ≤ 1) :
    windowStart n p = min (max ⌊p * (n : ℚ)⌋ 0) ((n : ℤ) - FFT_BLOCK) ∧
    0 ≤ windowStart n p ∧
    windowStart n p ≤ (n : ℤ) - FFT_BLOCK ∧
    (p = 0 → windowStart n p = 0) ∧
    (p = 1 → windowStart n p = (n : ℤ) - FFT_BLOCK) ∧
    (∀ q : ℚ, p ≤ q → windowStart n p ≤ windowStart n q) := by
  have hnn : (0 : ℚ) ≤ (n : ℚ) := Nat.cast_nonneg n
  have hM : (0 : ℤ) ≤ (n : ℤ) - FFT_BLOCK := by
    have : (FFT_BLOCK : ℤ) ≤ (n : ℤ) := Int.ofNat_le.mpr hn
    omega
  have hmono : ∀ q : ℚ, p ≤ q → windowStart n p ≤ windowStart n q := by
    intro q hpq
    unfold windowStart
    have hq0 : 0 ≤ q := le_trans h0 hpq
    rw [truncQ_of_nonneg _ (mul_nonneg h0 hnn),
      truncQ_of_nonneg _ (mul_nonneg hq0 hnn)]
    have hfl : ⌊p * (n : ℚ)⌋ ≤ ⌊q * (n : ℚ)⌋ :=
      Int.floor_le_floor (mul_le_mul_of_nonneg_right hpq hnn)
    exact max_le_max (le_refl 0) (min_le_min hfl (le_refl _))
  refine ⟨?_, windowStart_nonneg n p, windowStart_le n p hn, ?_, ?_, hmono⟩
  · unfold windowStart
    rw [truncQ_of_nonneg _ (mul_nonneg h0 hnn)]
    simp only [FFT_BLOCK] at hM ⊢
    omega
  · intro hp
    subst hp
    unfold windowStart
    rw [truncQ_of_nonneg _ (by rw [zero_mul]), zero_mul, Int.floor_zero]
    simp only [FFT_BLOCK] at hM ⊢
    omega
  · intro hp
    subst hp
    unfold windowStart
    rw [truncQ_of_nonneg _ (by rw [one_mul]; exact hnn), one_mul,
      Int.floor_natCast]
    simp only [FFT_BLOCK] at hM ⊢
    omega

/-- Witness for C2 at a 4096-frame buffer and the middle position. -/
theorem C2_witness :
    (FFT_BLOCK ≤ 4096 ∧ (0 : ℚ) ≤ 1 / 2 ∧ (1 / 2 : ℚ) ≤ 1) ∧
      (windowStart 4096 (1 / 2) =
          min (max ⌊(1 / 2 : ℚ) * ((4096 : ℕ) : ℚ)⌋ 0)
            (((4096 : ℕ) : ℤ) - FFT_BLOCK) ∧
        0 ≤ windowStart 4096 (1 / 2) ∧
        windowStart 4096 (1 / 2) ≤ ((4096 : ℕ) : ℤ) - FFT_BLOCK ∧
        ((1 / 2 : ℚ) = 0 → windowStart 4096 (1 / 2) = 0) ∧
        ((1 / 2 : ℚ) = 1 →
          windowStart 4096 (1 / 2) = ((4096 : ℕ) : ℤ) - FFT_BLOCK) ∧
        (∀ q : ℚ, 1 / 2 ≤ q → windowStart 4096 (1 / 2) ≤ windowStart 4096 q)) :=
  ⟨⟨by norm_num [FFT_BLOCK], by norm_num, by norm_num⟩,
    C2_window_placement 4096 (1 / 2) (by norm_num [FFT_BLOCK]) (by norm_num)
      (by norm_num)⟩

-- ---------------------------------------------------------------------------
-- C9: output vector lengths
-- ---------------------------------------------------------------------------

/-- C9: for every buffer with at least 2048 frames, position in `[0, 1]`
and bar count, the analyzer produces a result whose bars vector has length
`barCount` and whose left, right and mono waveforms each have length 2048
(given that the index oracle returns `barCount` indices, as
`np.logspace(..., num=bar_count)` does). -/
theorem C9_result_lengths (f : List ℚ → List ℚ) (g : ℚ → ℚ)
    (ls : ℕ → List ℤ) (hls : ∀ B, (ls B).length = B)
    (s : List (List ℚ)) (p : ℚ) (B : ℕ)
    (hn : FFT_BLOCK ≤ s.length) (h0 : 0 ≤ p) (h1 : p ≤ 1) :
    ∃ r, computeFFTFrame f g ls (some s) p B = some r ∧
      r.bars.length = B ∧ r.left.length = FFT_BLOCK ∧
      r.right.length = FFT_BLOCK ∧ r.mono.length = FFT_BLOCK := by
  have hbars : (barsOf f g ls s p B).length = B := by
    unfold barsOf barIndices
    rw [List.length_map, List.length_map, hls]
  have hleft : (pyNormAbs (leftCh (blockOf s p))).length = FFT_BLOCK := by
    rw [pyNormAbs_length, leftCh_length, blockOf_length s p hn]
  have hright : (pyNormAbs (rightCh (blockOf s p))).length = FFT_BLOCK := by
    rw [pyNormAbs_length, rightCh_length, blockOf_length s p hn]
  have hmono : (pyNormAbs (monoCh (blockOf s p))).length = FFT_BLOCK := by
    rw [pyNormAbs_length, monoCh_length, blockOf_length s p hn]
  exact ⟨_, computeFFTFrame_eq_some f g ls s p B hn h0 h1,
    hbars, hleft, hright, hmono⟩

/-- Witness for C9 on a concrete 4096-frame stereo buffer with 64 bars. -/
theorem C9_witness :
    ((∀ B, (ls0 B).length = B) ∧ FFT_BLOCK ≤ buf4096.length ∧
        (0 : ℚ) ≤ 1 / 2 ∧ (1 / 2 : ℚ) ≤ 1) ∧
      (∃ r, computeFFTFrame rfft0 log1p0 ls0 (some buf4096) (1 / 2) 64 =
          some r ∧
        r.bars.length = 64 ∧ r.left.length = FFT_BLOCK ∧
        r.right.length = FFT_BLOCK ∧ r.mono.length = FFT_BLOCK) :=
  ⟨⟨fun B => by rw [ls0, List.length_replicate],
      by rw [buf4096, List.length_replicate]; norm_num [FFT_BLOCK],
      by norm_num, by norm_num⟩,
    C9_result_lengths rfft0 log1p0 ls0
      (fun B => by rw [ls0, List.length_replicate]) buf4096 (1 / 2) 64
      (by rw [buf4096, List.length_replicate]; norm_num [FFT_BLOCK])
      (by norm_num) (by norm_num)⟩

-- ---------------------------------------------------------------------------
-- C4: independent normalization of the four output vectors
-- ---------------------------------------------------------------------------

/-- The raw spectrum entries are non-negative whenever the FFT-magnitude
oracle produces non-negative values and `log1p` preserves non-negativity
(both true of the numpy routines the source calls). -/
theorem specRaw_nonneg (f : List ℚ → List ℚ) (g : ℚ → ℚ)
    (hf : ∀ m x, x ∈ f m → 0 ≤ x) (hg : ∀ x, 0 ≤ x → 0 ≤ g x)
    (mono : List ℚ) : ∀ x ∈ specRaw f g mono, 0 ≤ x := by
  intro x hx
  unfold specRaw at hx
  rcases List.mem_map.mp hx with ⟨y, hy, rfl⟩
  exact hg y (hf mono y (List.mem_of_mem_take hy))

set_option maxHeartbeats 1000000 in
/-- C4: each of the four vectors of a produced frame — the normalized
spectrum feeding the bars and the left, right and mono waveforms — is
normalized by its own peak absolute value, independently of the others:
a vector whose pre-normalization peak is zero is passed through unchanged
(and is all zero), otherwise its post-normalization peak absolute value is
exactly 1; in all cases every entry stays within `[-1, 1]`. -/
theorem C4_independent_normalization (f : List ℚ → List ℚ) (g : ℚ → ℚ)
    (ls : ℕ → List ℤ)
    (hf : ∀ m x, x ∈ f m → 0 ≤ x) (hg : ∀ x, 0 ≤ x → 0 ≤ g x)
    (s : List (List ℚ)) (p : ℚ) (B : ℕ)
    (hn : FFT_BLOCK ≤ s.length) (h0 : 0 ≤ p) (h1 : p ≤ 1) :
    ∃ r, computeFFTFrame f g ls (some s) p B = some r ∧
      NormSpec (specRaw f g (monoCh (blockOf s p)))
        (specNorm f g (monoCh (blockOf s p))) ∧
      r.left = pyNormAbs (leftCh (blockOf s p)) ∧
      NormSpec (leftCh (blockOf s p)) r.left ∧
      r.right = pyNormAbs (rightCh (blockOf s p)) ∧
      NormSpec (rightCh (blockOf s p)) r.right ∧
      r.mono = pyNormAbs (monoCh (blockOf s p)) ∧
      NormSpec (monoCh (blockOf s p)) r.mono := by
  have hsp : specNorm f g (monoCh (blockOf s p)) =
      pyNormAbs (specRaw f g (monoCh (blockOf s p))) := by
    unfold specNorm
    exact pyNormMax_eq_pyNormAbs _ (specRaw_nonneg f g hf hg _)
  have hspec : NormSpec (specRaw f g (monoCh (blockOf s p)))
      (specNorm f g (monoCh (blockOf s p))) := by
    rw [hsp]
    exact normSpec_pyNormAbs _
  exact ⟨⟨barsOf f g ls s p B, pyNormAbs (leftCh (blockOf s p)),
      pyNormAbs (rightCh (blockOf s p)), pyNormAbs (monoCh (blockOf s p))⟩,
    computeFFTFrame_eq_some f g ls s p B hn h0 h1, hspec,
    rfl, normSpec_pyNormAbs _, rfl, normSpec_pyNormAbs _,
    rfl, normSpec_pyNormAbs _⟩

/-- Witness for C4 on a concrete 4096-frame stereo buffer. -/
theorem C4_witness :
    ((∀ m x, x ∈ rfft0 m → 0 ≤ x) ∧ (∀ x : ℚ, 0 ≤ x → 0 ≤ log1p0 x) ∧
        FFT_BLOCK ≤ buf4096.length ∧ (0 : ℚ) ≤ 1 / 2 ∧ (1 / 2 : ℚ) ≤ 1) ∧
      (∃ r, computeFFTFrame rfft0 log1p0 ls0 (some buf4096) (1 / 2) 8 =
          some r ∧
        NormSpec (specRaw rfft0 log1p0 (monoCh (blockOf buf4096 (1 / 2))))
          (specNorm rfft0 log1p0 (monoCh (blockOf buf4096 (1 / 2)))) ∧
        r.left = pyNormAbs (leftCh (blockOf buf4096 (1 / 2))) ∧
        NormSpec (leftCh (blockOf buf4096 (1 / 2))) r.left ∧
        r.right = pyNormAbs (rightCh (blockOf buf4096 (1 / 2))) ∧
        NormSpec (rightCh (blockOf buf4096 (1 / 2))) r.right ∧
        r.mono = pyNormAbs (monoCh (blockOf buf4096 (1 / 2))) ∧
        NormSpec (monoCh (blockOf buf4096 (1 / 2))) r.mono) :=
  ⟨⟨fun m x hx => by
      rw [rfft0] at hx
      rw [List.eq_of_mem_replicate hx],
    fun x hx => hx,
    by rw [buf4096, List.length_replicate]; norm_num [FFT_BLOCK],
    by norm_num, by norm_num⟩,
   C4_independent_normalization rfft0 log1p0 ls0
    (fun m x hx => by
      rw [rfft0] at hx
      rw [List.eq_of_mem_replicate hx])
    (fun x hx => hx) buf4096 (1 / 2) 8
    (by rw [buf4096, List.length_replicate]; norm_num [FFT_BLOCK])
    (by norm_num) (by norm_num)⟩

-- ---------------------------------------------------------------------------
-- C5: spectrogram history invariants
-- ---------------------------------------------------------------------------

/-- Shrinking (or growing) the cap to `n ≥ 1` keeps exactly the newest
`min n len` columns: the result is the original list with its oldest
`len - n` entries dropped. -/
theorem set_max_cols_drop (s : SpectrogramState) (n : ℕ) (hn : 1 ≤ n) :
    (set_max_cols s n).cols = s.cols.drop (s.cols.length - n) := by
  unfold set_max_cols
  split
  · unfold pySliceLast
    rw [if_neg (by omega)]
  · rw [Nat.sub_eq_zero_of_le (by omega), List.drop_zero]

/-- After `set_max_cols n` with `n ≥ 1`, at most `n` columns remain. -/
theorem set_max_cols_le (s : SpectrogramState) (n : ℕ) (hn : 1 ≤ n) :
    (set_max_cols s n).cols.length ≤ n := by
  rw [set_max_cols_drop s n hn, List.length_drop]
  omega

/-- The cap field after `set_max_cols`. -/
theorem set_max_cols_cap (s : SpectrogramState) (n : ℕ) :
    (set_max_cols s n).maxCols = n := by
  unfold set_max_cols
  split <;> rfl

/-- The cap field after `add_column`. -/
theorem add_column_cap (s : SpectrogramState) (c : List ℚ) :
    (add_column s c).maxCols = s.maxCols := by
  unfold add_column
  split <;> rfl

/-- Appending to a full history evicts exactly the oldest column. -/
theorem add_column_full (s : SpectrogramState) (c : List ℚ)
    (hcap : 1 ≤ s.maxCols) (hfull : s.cols.length = s.maxCols) :
    (add_column s c).cols = s.cols.tail ++ [c] := by
  unfold add_column
  rw [if_pos (by rw [List.length_append, List.length_singleton, hfull]; omega)]
  show (s.cols ++ [c]).drop 1 = s.cols.tail ++ [c]
  rw [List.drop_append_of_le_length (by omega), List.drop_one]

/-- Appending below the cap keeps every column. -/
theorem add_column_not_full (s : SpectrogramState) (c : List ℚ)
    (hroom : s.cols.length < s.maxCols) :
    (add_column s c).cols = s.cols ++ [c] := by
  unfold add_column
  rw [if_neg (by rw [List.length_append, List.length_singleton]; omega)]

/-- `add_column` preserves the cap invariant. -/
theorem add_column_inv (s : SpectrogramState) (c : List ℚ)
    (hcap : 1 ≤ s.maxCols) (hlen : s.cols.length ≤ s.maxCols) :
    (add_column s c).cols.length ≤ (add_column s c).maxCols := by
  rw [add_column_cap]
  unfold add_column
  split
  · rw [List.length_drop, List.length_append, List.length_singleton]
    omega
  · rename_i h
    rw [List.length_append, List.length_singleton] at h ⊢
    omega

/-- One widget operation preserves the cap invariant (given a cap of at
least 1 both before and as any new cap value). -/
theorem sgStep_inv (s : SpectrogramState) (op : SGOp)
    (hop : ∀ n, op = SGOp.setCap n → 1 ≤ n)
    (hcap : 1 ≤ s.maxCols) (hlen : s.cols.length ≤ s.maxCols) :
    1 ≤ (sgStep s op).maxCols ∧
      (sgStep s op).cols.length ≤ (sgStep s op).maxCols := by
  match op with
  | SGOp.add c =>
    exact ⟨by rw [sgStep, add_column_cap]; exact hcap,
      add_column_inv s c hcap hlen⟩
  | SGOp.setCap n =>
    have hn := hop n rfl
    exact ⟨by rw [sgStep, set_max_cols_cap]; exact hn,
      by rw [sgStep, set_max_cols_cap]; exact set_max_cols_le s n hn⟩

/-- Running any sequence of operations with caps at least 1 preserves the
cap invariant. -/
theorem sgRun_inv : ∀ (ops : List SGOp) (s : SpectrogramState),
    (∀ n, SGOp.setCap n ∈ ops → 1 ≤ n) →
    1 ≤ s.maxCols → s.cols.length ≤ s.maxCols →
    1 ≤ (sgRun s ops).maxCols ∧
      (sgRun s ops).cols.length ≤ (sgRun s ops).maxCols
  | [], s, _, hcap, hlen => ⟨hcap, hlen⟩
  | op :: rest, s, hops, hcap, hlen => by
    have hstep := sgStep_inv s op
      (fun n hn => hops n (hn ▸ List.mem_cons_self op rest)) hcap hlen
    have := sgRun_inv rest (sgStep s op)
      (fun n hn => hops n (List.mem_cons_of_mem op hn)) hstep.1 hstep.2
    exact this

/-- Each widget operation leaves the retained columns a suffix of the old
columns followed by whatever the operation appended. -/
theorem sgStep_suffix (s : SpectrogramState) (op : SGOp) :
    (sgStep s op).cols <:+ s.cols ++ addedCols [op] := by
  match op with
  | SGOp.add c =>
    show (add_column s c).cols <:+ s.cols ++ [c]
    unfold add_column
    split
    · exact List.drop_suffix 1 (s.cols ++ [c])
    · exact List.suffix_refl _
  | SGOp.setCap n =>
    show (set_max_cols s n).cols <:+ s.cols ++ []
    rw [List.append_nil]
    unfold set_max_cols
    split
    · unfold pySliceLast
      split
      · exact List.suffix_refl _
      · exact List.drop_suffix _ _
    · exact List.suffix_refl _

/-- Appending the same tail on the right preserves the suffix relation. -/
theorem suffix_append_right {α : Type} {l₁ l₂ t : List α} (h : l₁ <:+ l₂) :
    l₁ ++ t <:+ l₂ ++ t := by
  rcases h with ⟨u, hu⟩
  exact ⟨u, by rw [← List.append_assoc, hu]⟩

/-- The retained columns after any run are a suffix of the initial columns
followed by all appended columns, in order. -/
theorem sgRun_suffix : ∀ (ops : List SGOp) (s : SpectrogramState),
    (sgRun s ops).cols <:+ s.cols ++ addedCols ops
  | [], s => by
    rw [addedCols, List.filterMap_nil, List.append_nil]
    exact List.suffix_refl _
  | op :: rest, s => by
    have h1 : (sgRun (sgStep s op) rest).cols <:+
        (sgStep s op).cols ++ addedCols rest := sgRun_suffix rest (sgStep s op)
    have h2 : (sgStep s op).cols ++ addedCols rest <:+
        (s.cols ++ addedCols [op]) ++ addedCols rest :=
      suffix_append_right (sgStep_suffix s op)
    have h3 : (s.cols ++ addedCols [op]) ++ addedCols rest =
        s.cols ++ addedCols (op :: rest) := by
      rw [List.append_assoc]
      unfold addedCols
      rw [← List.filterMap_append]
      rfl
    exact (h1.trans (h3 ▸ h2))

/-- C5: starting from the empty spectrogram widget, after any sequence of
`add_column` and `set_max_cols` operations whose caps are all at least 1,
the retained column count never exceeds the current cap; the retained
columns are a suffix of the appended columns (so eviction is FIFO and the
survivors keep their original relative order); a full append evicts exactly
the oldest column; an append below the cap evicts nothing; and shrinking
the cap truncates immediately from the front, keeping the newest `cap`
columns. -/
theorem C5_spectrogram_invariant (ops : List SGOp)
    (hops : ∀ n, SGOp.setCap n ∈ ops → 1 ≤ n) :
    ((sgRun sgInit ops).cols.length ≤ (sgRun sgInit ops).maxCols ∧
      (sgRun sgInit ops).cols <:+ addedCols ops) ∧
    (∀ (s : SpectrogramState) (c : List ℚ), 1 ≤ s.maxCols →
      s.cols.length = s.maxCols → (add_column s c).cols = s.cols.tail ++ [c]) ∧
    (∀ (s : SpectrogramState) (c : List ℚ), s.cols.length < s.maxCols →
      (add_column s c).cols = s.cols ++ [c]) ∧
    (∀ (s : SpectrogramState) (n : ℕ), 1 ≤ n →
      (set_max_cols s n).cols = s.cols.drop (s.cols.length - n) ∧
        (set_max_cols s n).cols.length ≤ n) := by
  refine ⟨⟨?_, ?_⟩, add_column_full, add_column_not_full,
    fun s n hn => ⟨set_max_cols_drop s n hn, set_max_cols_le s n hn⟩⟩
  · exact (sgRun_inv ops sgInit hops (by norm_num [sgInit])
      (by norm_num [sgInit])).2
  · have := sgRun_suffix ops sgInit
    rwa [show sgInit.cols = [] from rfl, List.nil_append] at this

/-- Witness for C5: two appends under a cap of 2. -/
theorem C5_witness :
    (∀ n, SGOp.setCap n ∈ [SGOp.add [1], SGOp.add [2]] → 1 ≤ n) ∧
    (((sgRun sgInit [SGOp.add [1], SGOp.add [2]]).cols.length ≤
        (sgRun sgInit [SGOp.add [1], SGOp.add [2]]).maxCols ∧
      (sgRun sgInit [SGOp.add [1], SGOp.add [2]]).cols <:+
        addedCols [SGOp.add [1], SGOp.add [2]]) ∧
    (∀ (s : SpectrogramState) (c : List ℚ), 1 ≤ s.maxCols →
      s.cols.length = s.maxCols → (add_column s c).cols = s.cols.tail ++ [c]) ∧
    (∀ (s : SpectrogramState) (c : List ℚ), s.cols.length < s.maxCols →
      (add_column s c).cols = s.cols ++ [c]) ∧
    (∀ (s : SpectrogramState) (n : ℕ), 1 ≤ n →
      (set_max_cols s n).cols = s.cols.drop (s.cols.length - n) ∧
        (set_max_cols s n).cols.length ≤ n)) := by
  have hops : ∀ n, SGOp.setCap n ∈ [SGOp.add [1], SGOp.add [2]] → 1 ≤ n := by
    intro n hn
    rcases List.mem_cons.mp hn with h | h
    · exact SGOp.noConfusion h
    · rcases List.mem_singleton.mp h with h2
      exact SGOp.noConfusion h2
  exact ⟨hops, C5_spectrogram_invariant [SGOp.add [1], SGOp.add [2]] hops⟩

-- ---------------------------------------------------------------------------
-- C6: spectral-flux update
-- ---------------------------------------------------------------------------

/-- The flux of a vector against itself is zero. -/
theorem fluxOf_self : ∀ v : List ℚ, fluxOf v v = 0
  | [] => rfl
  | a :: t => by
    have ih := fluxOf_self t
    unfold fluxOf at ih ⊢
    rw [List.zipWith_cons_cons, List.sum_cons, ih, sub_self, abs_zero,
      zero_add]

/-- C6: every `update_spectrum` call replaces the retained previous vector
with the current one; nothing is appended on the first call or on a length
mismatch; when a previous vector of the same length exists, the value
`min(1, sum |cur - prev| / 10)` is appended (subject to the FIFO cap); two
identical consecutive vectors append `0`; and `[1, 0]` followed by `[0, 1]`
appends `2 / 10 = 0.2`. -/
theorem update_spectrum_prev (s : FluxState) (v : List ℚ) :
    (update_spectrum s v).prev = some v := by
  unfold update_spectrum
  split
  · split <;> rfl
  · rfl

theorem update_spectrum_maxPoints (s : FluxState) (v : List ℚ) :
    (update_spectrum s v).maxPoints = s.maxPoints := by
  unfold update_spectrum
  split
  · split <;> rfl
  · rfl

theorem update_spectrum_hist_match (s : FluxState) (v pv : List ℚ)
    (hp : s.prev = some pv) (hl : v.length = pv.length) :
    (update_spectrum s v).history =
      capTrim (s.history ++ [min 1 (fluxOf v pv / 10)]) s.maxPoints := by
  simp only [update_spectrum, hp]
  rw [if_pos hl]

theorem C6_flux_update (s : FluxState) (v : List ℚ) :
    (update_spectrum s v).prev = some v ∧
    (update_spectrum s v).maxPoints = s.maxPoints ∧
    (s.prev = none → (update_spectrum s v).history = s.history) ∧
    (∀ pv, s.prev = some pv → v.length ≠ pv.length →
      (update_spectrum s v).history = s.history) ∧
    (∀ pv, s.prev = some pv → v.length = pv.length →
      (update_spectrum s v).history =
        capTrim (s.history ++ [min 1 (fluxOf v pv / 10)]) s.maxPoints) ∧
    (s.prev = some v → (update_spectrum s v).history =
      capTrim (s.history ++ [0]) s.maxPoints) ∧
    (∀ t : FluxState,
      (update_spectrum (update_spectrum t [1, 0]) [0, 1]).history =
        capTrim ((update_spectrum t [1, 0]).history ++ [1 / 5])
          t.maxPoints) := by
  refine ⟨update_spectrum_prev s v, update_spectrum_maxPoints s v, ?_, ?_,
    update_spectrum_hist_match s v, ?_, ?_⟩
  · intro hp
    simp only [update_spectrum, hp]
  · intro pv hp hl
    simp only [update_spectrum, hp]
    rw [if_neg hl]
  · intro hp
    rw [update_spectrum_hist_match s v v hp rfl, fluxOf_self, zero_div,
      min_eq_right (by norm_num : (0 : ℚ) ≤ 1)]
  · intro t
    have hfx : fluxOf [0, 1] [1, 0] = 2 := by
      unfold fluxOf
      norm_num
    rw [update_spectrum_hist_match (update_spectrum t [1, 0]) [0, 1] [1, 0]
      (update_spectrum_prev t [1, 0]) rfl, hfx,
      update_spectrum_maxPoints t [1, 0],
      min_eq_right (by norm_num : (2 : ℚ) / 10 ≤ 1)]
    norm_num

/-- Witness for C6 at a concrete widget state. -/
theorem C6_witness :
    (update_spectrum ⟨[], some [3, 7], 5⟩ [3, 7]).prev = some [3, 7] ∧
    (update_spectrum ⟨[], some [3, 7], 5⟩ [3, 7]).maxPoints = 5 ∧
    ((⟨[], some [3, 7], 5⟩ : FluxState).prev = none →
      (update_spectrum ⟨[], some [3, 7], 5⟩ [3, 7]).history = []) ∧
    (∀ pv, (⟨[], some [3, 7], 5⟩ : FluxState).prev = some pv →
      ([3, 7] : List ℚ).length ≠ pv.length →
      (update_spectrum ⟨[], some [3, 7], 5⟩ [3, 7]).history = []) ∧
    (∀ pv, (⟨[], some [3, 7], 5⟩ : FluxState).prev = some pv →
      ([3, 7] : List ℚ).length = pv.length →
      (update_spectrum ⟨[], some [3, 7], 5⟩ [3, 7]).history =
        capTrim ([] ++ [min 1 (fluxOf [3, 7] pv / 10)]) 5) ∧
    ((⟨[], some [3, 7], 5⟩ : FluxState).prev = some [3, 7] →
      (update_spectrum ⟨[], some [3, 7], 5⟩ [3, 7]).history =
        capTrim ([] ++ [0]) 5) ∧
    (∀ t : FluxState,
      (update_spectrum (update_spectrum t [1, 0]) [0, 1]).history =
        capTrim ((update_spectrum t [1, 0]).history ++ [1 / 5])
          t.maxPoints) :=
  C6_flux_update ⟨[], some [3, 7], 5⟩ [3, 7]

-- ---------------------------------------------------------------------------
-- C10: cap zero disables truncation
-- ---------------------------------------------------------------------------

/-- After `set_max_points n` with `n ≥ 1`, at most `n` points remain. -/
theorem set_max_points_le (t : FluxState) (n : ℕ) (hn : 1 ≤ n) :
    (set_max_points t n).history.length ≤ n := by
  unfold set_max_points
  split
  · unfold pySliceLastQ
    rw [if_neg (by omega), List.length_drop]
    omega
  · rename_i h
    rw [not_lt] at h
    exact h

/-- C10: the cap setters guarantee the bound only for caps of at least 1;
with cap 0 the Python slice `history[-0:]` is the whole list, so the
history is left completely unchanged rather than emptied. -/
theorem C10_cap_zero_no_truncation :
    (∀ s : SpectrogramState, (set_max_cols s 0).cols = s.cols) ∧
    (∀ t : FluxState, (set_max_points t 0).history = t.history) ∧
    (∀ (s : SpectrogramState) (n : ℕ), 1 ≤ n →
      (set_max_cols s n).cols.length ≤ n) ∧
    (∀ (t : FluxState) (n : ℕ), 1 ≤ n →
      (set_max_points t n).history.length ≤ n) := by
  refine ⟨?_, ?_, fun s n hn => set_max_cols_le s n hn,
    fun t n hn => set_max_points_le t n hn⟩
  · intro s
    unfold set_max_cols
    split
    · unfold pySliceLast
      rw [if_pos rfl]
    · rfl
  · intro t
    unfold set_max_points
    split
    · unfold pySliceLastQ
      rw [if_pos rfl]
    · rfl

/-- Witness for C10: a widget holding three columns keeps all three after
its cap is set to 0, and respects a cap of 2. -/
theorem C10_witness :
    (set_max_cols ⟨[[1], [2], [3]], 3⟩ 0).cols = [[1], [2], [3]] ∧
    (set_max_points ⟨[4, 5, 6], none, 3⟩ 0).history = [4, 5, 6] ∧
    (1 ≤ 2 ∧ (set_max_cols ⟨[[1], [2], [3]], 3⟩ 2).cols.length ≤ 2) ∧
    (1 ≤ 2 ∧ (set_max_points ⟨[4, 5, 6], none, 3⟩ 2).history.length ≤ 2) :=
  ⟨C10_cap_zero_no_truncation.1 ⟨[[1], [2], [3]], 3⟩,
   C10_cap_zero_no_truncation.2.1 ⟨[4, 5, 6], none, 3⟩,
   ⟨by norm_num,
    C10_cap_zero_no_truncation.2.2.1 ⟨[[1], [2], [3]], 3⟩ 2 (by norm_num)⟩,
   ⟨by norm_num,
    C10_cap_zero_no_truncation.2.2.2 ⟨[4, 5, 6], none, 3⟩ 2 (by norm_num)⟩⟩

-- ---------------------------------------------------------------------------
-- C7: stale decode results (no generation token in the source)
-- ---------------------------------------------------------------------------

/-- C7 counterexample: issue `load("a")` then `load("b")` before the first
decode finishes; the decode of "b" completes first, then the stale decode
of "a" completes.  The source has no generation token, so the stale result
overwrites the exposed buffer and sample rate of the newer load: the final
state holds the samples and rate of "a", not of "b". -/
theorem C7_stale_overwrite :
    (loaderRun decodeAB ⟨none, 0, []⟩
        [LoaderEv.load "a", LoaderEv.load "b",
         LoaderEv.finish 1, LoaderEv.finish 0]).samples = some [[1]] ∧
    (loaderRun decodeAB ⟨none, 0, []⟩
        [LoaderEv.load "a", LoaderEv.load "b",
         LoaderEv.finish 1, LoaderEv.finish 0]).sample_rate = 11 ∧
    (loaderRun decodeAB ⟨none, 0, []⟩
        [LoaderEv.load "a", LoaderEv.load "b",
         LoaderEv.finish 1, LoaderEv.finish 0]).samples ≠ some [[2]] := by
  refine ⟨rfl, rfl, ?_⟩
  intro h
  simp only [loaderRun, List.foldl, loaderStep, decodeAB] at h
  exact absurd (Option.some.inj h) (by decide)

-- ---------------------------------------------------------------------------
-- C8: decode failure leaves the loader at "no data"
-- ---------------------------------------------------------------------------

/-- C8: from any loader state, `load(path)` followed by the completion of
that decode with a failure leaves the exposed state at "no data": the
samples stay absent and the sample rate stays 0 (the `load` call itself
reset them synchronously, and the except branch of `_run` only prints).
No exception propagates: the step function is total, the failing branch
merely returns the unchanged exposed state. -/
theorem C8_decode_failure (decode : String → Option (List (List ℚ) × ℕ))
    (s : LoaderState) (p : String) (hfail : decode p = none) :
    (loaderRun decode s
        [LoaderEv.load p, LoaderEv.finish s.pending.length]).samples = none ∧
    (loaderRun decode s
        [LoaderEv.load p, LoaderEv.finish s.pending.length]).sample_rate
      = 0 := by
  have hstep : loaderRun decode s
      [LoaderEv.load p, LoaderEv.finish s.pending.length] =
      loaderStep decode ⟨none, 0, s.pending ++ [p]⟩
        (LoaderEv.finish s.pending.length) := rfl
  rw [hstep]
  show (match (s.pending ++ [p])[s.pending.length]? with
    | none => (⟨none, 0, s.pending ++ [p]⟩ : LoaderState)
    | some q =>
      match decode q with
      | some br => ⟨some br.1, br.2, (s.pending ++ [p]).eraseIdx
          s.pending.length⟩
      | none => ⟨none, 0, (s.pending ++ [p]).eraseIdx
          s.pending.length⟩).samples = none ∧
    (match (s.pending ++ [p])[s.pending.length]? with
    | none => (⟨none, 0, s.pending ++ [p]⟩ : LoaderState)
    | some q =>
      match decode q with
      | some br => ⟨some br.1, br.2, (s.pending ++ [p]).eraseIdx
          s.pending.length⟩
      | none => ⟨none, 0, (s.pending ++ [p]).eraseIdx
          s.pending.length⟩).sample_rate = 0
  rw [List.getElem?_concat_length]
  simp [hfail]

/-- Witness for C8: a failing decode of "x" from the empty loader state. -/
theorem C8_witness :
    decodeFail "x" = none ∧
    ((loaderRun decodeFail ⟨none, 0, []⟩
        [LoaderEv.load "x",
         LoaderEv.finish (([] : List String)).length]).samples = none ∧
      (loaderRun decodeFail ⟨none, 0, []⟩
        [LoaderEv.load "x",
         LoaderEv.finish (([] : List String)).length]).sample_rate = 0) :=
  ⟨rfl, C8_decode_failure decodeFail ⟨none, 0, []⟩ "x" rfl⟩

-- ---------------------------------------------------------------------------
-- C3: the log-spaced bar index formula
-- ---------------------------------------------------------------------------

/-- The logspace value in closed form: `511 ^ (k / (B - 1))`. -/
theorem logspaceVal_eq_rpow (B k : ℕ) :
    logspaceVal B k = (511 : ℝ) ^ ((k : ℝ) / ((B : ℝ) - 1)) := by
  unfold logspaceVal
  have hexp : ((k : ℝ) * Real.logb 10 511) / ((B : ℝ) - 1) =
      Real.logb 10 511 * ((k : ℝ) / ((B : ℝ) - 1)) := by ring
  rw [hexp, Real.rpow_mul (by norm_num : (0 : ℝ) ≤ 10),
    Real.rpow_logb (by norm_num : (0 : ℝ) < 10) (by norm_num : (10 : ℝ) ≠ 1)
      (by norm_num : (0 : ℝ) < 511)]

/-- The logspace value is positive. -/
theorem logspaceVal_pos (B k : ℕ) : 0 < logspaceVal B k := by
  unfold logspaceVal
  exact Real.rpow_pos_of_pos (by norm_num) _

/-- On the (positive) logspace values the int cast is the floor. -/
theorem truncR_logspaceVal (B k : ℕ) :
    truncR (logspaceVal B k) = ⌊logspaceVal B k⌋ := by
  unfold truncR
  rw [if_pos (le_of_lt (logspaceVal_pos B k))]

/-- C3 counterexample: at `barCount = 3` and `k = 1` the value is
`sqrt 511 = 22.605...`, which the source truncates to index 22, while the
claimed formula rounds to 23; so the claim, as stated with `round`, is
false on the code. -/
theorem C3_counterexample :
    barIndex 3 1 = 22 ∧ barIndexClaim 3 1 = 23 ∧
      barIndex 3 1 ≠ barIndexClaim 3 1 := by
  have hsqrt : logspaceVal 3 1 = Real.sqrt 511 := by
    rw [logspaceVal_eq_rpow,
      show ((1 : ℕ) : ℝ) / (((3 : ℕ) : ℝ) - 1) = 1 / (2 : ℝ) by norm_num,
      ← Real.sqrt_eq_rpow]
  have h45 : (45 / 2 : ℝ) ≤ Real.sqrt 511 :=
    (Real.le_sqrt (by norm_num) (by norm_num)).mpr (by norm_num)
  have h22 : (22 : ℝ) ≤ Real.sqrt 511 := le_trans (by norm_num) h45
  have hlt : Real.sqrt 511 < 23 := by
    have h := Real.sqrt_lt_sqrt (by norm_num : (0 : ℝ) ≤ 511)
      (by norm_num : (511 : ℝ) < 529)
    rwa [show (529 : ℝ) = 23 ^ 2 by norm_num,
      Real.sqrt_sq (by norm_num : (0 : ℝ) ≤ 23)] at h
  have hfl : ⌊Real.sqrt 511⌋ = 22 :=
    Int.floor_eq_iff.mpr ⟨by exact_mod_cast h22, by push_cast; linarith⟩
  have hrd : round (Real.sqrt 511) = 23 := by
    rw [round_eq]
    refine Int.floor_eq_iff.mpr ⟨?_, ?_⟩
    · push_cast
      linarith
    · push_cast
      linarith
  have hA : barIndex 3 1 = 22 := by
    unfold barIndex
    rw [truncR_logspaceVal, hsqrt, hfl]
    decide
  have hB : barIndexClaim 3 1 = 23 := by
    unfold barIndexClaim
    rw [hsqrt, hrd]
    decide
  exact ⟨hA, hB, by rw [hA, hB]; decide⟩

/-- C3 amended: for every `barCount ≥ 2` the k-th bar index is the
truncation (floor, not `round`) of `10 ^ (k / (barCount - 1) * log10 511)
= 511 ^ (k / (barCount - 1))`, clamped into `[0, 511]`; in exact
arithmetic the indices are monotone non-decreasing in `k` and run from
bin 1 at `k = 0` to bin 511 at `k = barCount - 1`; and these are exactly
the indices the analyzer samples (after its clip). -/
theorem C3_amended_bar_indices (B : ℕ) (hB : 2 ≤ B) :
    (∀ k, barIndex B k =
      max 0 (min ⌊(511 : ℝ) ^ ((k : ℝ) / ((B : ℝ) - 1))⌋ 511)) ∧
    barIndex B 0 = 1 ∧
    barIndex B (B - 1) = 511 ∧
    (∀ k l, k ≤ l → barIndex B k ≤ barIndex B l) ∧
    (∀ k, 0 ≤ barIndex B k ∧ barIndex B k ≤ 511) ∧
    barIndices logspaceModel B = (List.range B).map (fun k => barIndex B k) := by
  have hd : (0 : ℝ) < (B : ℝ) - 1 := by
    have : (2 : ℝ) ≤ (B : ℝ) := by exact_mod_cast hB
    linarith
  refine ⟨?_, ?_, ?_, ?_, ?_, ?_⟩
  · intro k
    unfold barIndex
    rw [truncR_logspaceVal, logspaceVal_eq_rpow]
  · have h1 : logspaceVal B 0 = 1 := by
      unfold logspaceVal
      rw [Nat.cast_zero, zero_mul, zero_div, Real.rpow_zero]
    unfold barIndex
    rw [truncR_logspaceVal, h1, Int.floor_one]
    decide
  · have h511 : logspaceVal B (B - 1) = 511 := by
      rw [logspaceVal_eq_rpow,
        Nat.cast_sub (le_trans one_le_two hB), Nat.cast_one,
        div_self (ne_of_gt hd), Real.rpow_one]
    unfold barIndex
    rw [truncR_logspaceVal, h511,
      show ((511 : ℝ)) = ((511 : ℤ) : ℝ) by norm_num, Int.floor_intCast]
    decide
  · intro k l hkl
    have hle : logspaceVal B k ≤ logspaceVal B l := by
      rw [logspaceVal_eq_rpow, logspaceVal_eq_rpow]
      exact Real.rpow_le_rpow_of_exponent_le (by norm_num)
        ((div_le_div_iff_of_pos_right hd).mpr (by exact_mod_cast hkl))
    unfold barIndex
    rw [truncR_logspaceVal, truncR_logspaceVal]
    exact max_le_max (le_refl 0)
      (min_le_min (Int.floor_le_floor hle) (le_refl _))
  · intro k
    exact ⟨le_max_left _ _, max_le (by decide) (min_le_right _ _)⟩
  · unfold barIndices logspaceModel
    rw [List.map_map]
    simp only [show ((FFT_BINS : ℤ) - 1) = 511 by norm_num [FFT_BINS]]
    rfl

/-- Witness for the amended C3 at `barCount = 2`. -/
theorem C3_amended_witness :
    2 ≤ 2 ∧
    ((∀ k, barIndex 2 k =
      max 0 (min ⌊(511 : ℝ) ^ ((k : ℝ) / (((2 : ℕ) : ℝ) - 1))⌋ 511)) ∧
    barIndex 2 0 = 1 ∧
    barIndex 2 (2 - 1) = 511 ∧
    (∀ k l, k ≤ l → barIndex 2 k ≤ barIndex 2 l) ∧
    (∀ k, 0 ≤ barIndex 2 k ∧ barIndex 2 k ≤ 511) ∧
    barIndices logspaceModel 2 =
      (List.range 2).map (fun k => barIndex 2 k)) :=
  ⟨le_refl 2, C3_amended_bar_indices 2 (le_refl 2)⟩
